import Mathlib

/-!
Shallow embedding of the wavetable synthesis engine of rodio-synth
(src/composer.rs, with the duplicated demo copy in src/main.rs).

Modelling conventions:
- f32 arithmetic is modelled exactly over the rationals.  The special values
  +inf, -inf and NaN, which the program reaches through the division
  60.0 / (tempo as f32) when tempo = 0, are modelled by the four-constructor
  type F32 with IEEE-754 multiplication, addition and comparison rules.
- Rust float-to-usize casts saturate at 0 for negative inputs (rustTruncUsize)
  and the Rust float remainder keeps the sign of the dividend (rustRem);
  both are modelled exactly.
- The real sine is not representable over the rationals, so the table
  generators are parametrised by a function s whose intended reading is
  s x = sin (2 * pi * x); theorems about actual sine values instantiate the
  polymorphic generator at the real numbers with that function, and
  executable witnesses instantiate it at the rationals.
- rand models the stream of rng.gen::<f32>() draws.
- Duration::from_secs_f32 panics on negative or non-finite input; a panic of
  the scheduler or the final sleep is modelled as the Option value none.
- Sink side effects (pause, set_volume, play, append) have no observable
  numeric content beyond the appended segments, which are recorded in order.
-/

namespace RodioSynth

/-- The f32 values this program can produce: exact finite rationals plus the
IEEE special values reachable through division by a zero tempo. -/
inductive F32 where
  | fin (q : ℚ)
  | pinf
  | ninf
  | nan
deriving DecidableEq

/-- IEEE-754 addition on the modelled f32 values (finite arithmetic exact). -/
def F32.add : F32 → F32 → F32
  | .nan, _ => .nan
  | .fin _, .nan => .nan
  | .pinf, .nan => .nan
  | .ninf, .nan => .nan
  | .fin a, .fin b => .fin (a + b)
  | .fin _, .pinf => .pinf
  | .pinf, .fin _ => .pinf
  | .fin _, .ninf => .ninf
  | .ninf, .fin _ => .ninf
  | .pinf, .pinf => .pinf
  | .ninf, .ninf => .ninf
  | .pinf, .ninf => .nan
  | .ninf, .pinf => .nan

/-- IEEE-754 multiplication on the modelled f32 values. -/
def F32.mul : F32 → F32 → F32
  | .nan, _ => .nan
  | .fin _, .nan => .nan
  | .pinf, .nan => .nan
  | .ninf, .nan => .nan
  | .fin a, .fin b => .fin (a * b)
  | .fin a, .pinf => if 0 < a then .pinf else if a < 0 then .ninf else .nan
  | .pinf, .fin b => if 0 < b then .pinf else if b < 0 then .ninf else .nan
  | .fin a, .ninf => if 0 < a then .ninf else if a < 0 then .pinf else .nan
  | .ninf, .fin b => if 0 < b then .ninf else if b < 0 then .pinf else .nan
  | .pinf, .pinf => .pinf
  | .pinf, .ninf => .ninf
  | .ninf, .pinf => .ninf
  | .ninf, .ninf => .pinf

/-- IEEE-754 comparison a > b on the modelled f32 values (false on NaN). -/
def F32.gtb : F32 → F32 → Bool
  | .nan, _ => false
  | .fin _, .nan => false
  | .pinf, .nan => false
  | .ninf, .nan => false
  | .fin a, .fin b => decide (b < a)
  | .pinf, .pinf => false
  | .pinf, .fin _ => true
  | .pinf, .ninf => true
  | .fin _, .pinf => false
  | .ninf, .fin _ => false
  | .ninf, .pinf => false
  | .ninf, .ninf => false
  | .fin _, .ninf => true

/-- IEEE-754 comparison a <= b on the modelled f32 values (false on NaN).
Used only to state properties, not by the embedded program. -/
def F32.leb : F32 → F32 → Bool
  | .nan, _ => false
  | .fin _, .nan => false
  | .pinf, .nan => false
  | .ninf, .nan => false
  | .fin a, .fin b => decide (a ≤ b)
  | .ninf, .fin _ => true
  | .ninf, .pinf => true
  | .ninf, .ninf => true
  | .fin _, .pinf => true
  | .pinf, .pinf => true
  | .pinf, .fin _ => false
  | .pinf, .ninf => false
  | .fin _, .ninf => false

/-- True exactly on finite nonnegative values.  A statement-side predicate. -/
def F32.isFinNonneg : F32 → Bool
  | .fin q => decide (0 ≤ q)
  | .pinf => false
  | .ninf => false
  | .nan => false

/-- Models the f32 expression 60.0 / (tempo as f32) from composer.rs line 208:
division of the positive constant 60.0 by zero yields +inf. -/
def sixtyOverTempo (tempo : ℕ) : F32 :=
  if tempo = 0 then .pinf else .fin (60 / (tempo : ℚ))

/-- Rust truncation toward zero of a float, as an integer. -/
def rtrunc {α : Type} [LinearOrderedField α] [FloorRing α] (x : α) : ℤ :=
  if 0 ≤ x then ⌊x⌋ else ⌈x⌉

/-- Rust cast of a float to usize: truncation toward zero, saturating at 0
for negative inputs. -/
def rustTruncUsize {α : Type} [LinearOrderedField α] [FloorRing α] (x : α) : ℕ :=
  if x < 0 then 0 else (⌊x⌋).toNat

/-- The Rust float remainder x % y: it has the sign of the dividend x,
x % y = x - y * trunc (x / y). -/
def rustRem {α : Type} [LinearOrderedField α] [FloorRing α] (x y : α) : α :=
  x - y * ((rtrunc (x / y) : ℤ) : α)

/-- Mathematical mod: x mod y = x - y * floor (x / y); for 0 < y the result
lies in [0, y).  Coincides with rustRem when the dividend is nonnegative. -/
def mathFmod {α : Type} [LinearOrderedField α] [FloorRing α] (x y : α) : α :=
  x - y * ((⌊x / y⌋ : ℤ) : α)

/-- The oscillator of composer.rs lines 70-76: a shared wave table plus phase
state.  The sample type is a parameter so that the same code can be read at
the rationals (executable) and at the reals (for sine facts); the source uses
f32 throughout. -/
structure WavetableOscillator (α : Type) where
  sample_rate : ℕ
  wave_table : List α
  index : α
  index_increment : α
deriving DecidableEq

section Oscillator

variable {α : Type} [LinearOrderedField α] [FloorRing α]

/-- WavetableOscillator::new, composer.rs lines 84-91. -/
def WavetableOscillator.new (sample_rate : ℕ) (wave_table : List α) :
    WavetableOscillator α :=
  ⟨sample_rate, wave_table, 0, 0⟩

/-- WavetableOscillator::set_frequency, composer.rs lines 93-96. -/
def WavetableOscillator.set_frequency (o : WavetableOscillator α) (frequency : α) :
    WavetableOscillator α :=
  { o with index_increment :=
      frequency * (o.wave_table.length : α) / (o.sample_rate : α) }

/-- WavetableOscillator::lerp, composer.rs lines 105-114.  Out-of-range list
reads (impossible while the phase invariant holds) default to 0. -/
def WavetableOscillator.lerp (o : WavetableOscillator α) : α :=
  let truncated_index := rustTruncUsize o.index
  let next_index := (truncated_index + 1) % o.wave_table.length
  let next_index_weight := o.index - (truncated_index : α)
  let truncated_index_weight := 1 - next_index_weight
  truncated_index_weight * o.wave_table.getD truncated_index 0
    + next_index_weight * o.wave_table.getD next_index 0

/-- WavetableOscillator::get_sample, composer.rs lines 98-103: returns the
interpolated sample and the oscillator with the advanced phase. -/
def WavetableOscillator.get_sample (o : WavetableOscillator α) :
    α × WavetableOscillator α :=
  let sample := o.lerp
  let newIndex := rustRem (o.index + o.index_increment) (o.wave_table.length : α)
  (sample, { o with index := newIndex })

end Oscillator

/-- Pulling k samples in sequence from an oscillator (the Iterator instance of
composer.rs lines 135-141), keeping the final state. -/
def runSamples : ℕ → WavetableOscillator ℚ → WavetableOscillator ℚ
  | 0, o => o
  | k + 1, o => runSamples k (o.get_sample).2

/-- An externally observable oscillator operation: a set_frequency call or one
sample pull. -/
inductive OscOp where
  | setFreq (f : ℚ)
  | next
deriving DecidableEq

/-- Applies one oscillator operation. -/
def applyOp (o : WavetableOscillator ℚ) : OscOp → WavetableOscillator ℚ
  | .setFreq f => o.set_frequency f
  | .next => (o.get_sample).2

/-- Applies a sequence of oscillator operations in order. -/
def applyOps : WavetableOscillator ℚ → List OscOp → WavetableOscillator ℚ
  | o, [] => o
  | o, op :: rest => applyOps (applyOp o op) rest

/-- True when an operation is a set_frequency call with a nonnegative
frequency, or a sample pull.  A statement-side predicate. -/
def OscOp.nonnegb : OscOp → Bool
  | .setFreq f => decide (0 ≤ f)
  | .next => true

/-- The five wave table kinds generated by play_song, composer.rs 149-179. -/
inductive TableKind where
  | Sine
  | Saw
  | Square
  | Triangle
  | Noise
deriving DecidableEq

/-- The table fill loops of play_song, composer.rs lines 156-179, with the
table size as a parameter (the source fixes wave_table_size = 128 in
composer.rs and 64 in main.rs).  s x stands for sin (2 * pi * x), so
s ((n : α) / N) is the source expression sin (2.0 * PI * n / N of f32);
rand n is the n-th rng.gen::<f32>() draw. -/
def fillTable {α : Type} [LinearOrderedField α] (s : α → α) (rand : ℕ → α) :
    TableKind → ℕ → List α
  | .Sine, N => (List.range N).map fun n : ℕ => s ((n : α) / (N : α))
  | .Saw, N => (List.range N).map fun n : ℕ => -1 + (2 / (N : α)) * (n : α)
  | .Square, N => (List.range N).map fun n : ℕ =>
      if 0 ≤ s ((n : α) / (N : α)) then 1 else -1
  | .Triangle, N => (List.range N).map fun n : ℕ =>
      if n < N / 2 then -1 + (2 / (N : α)) * (n : α) * 2
      else 3 - (2 / (N : α)) * (n : α) * 2
  | .Noise, N => (List.range N).map fun n : ℕ => rand n * 2 - 1

/-- The sine table fill loop of main.rs lines 94-96: the loop there runs
for n in 1..wave_table_size, starting at 1 rather than 0. -/
def mainSineTable {α : Type} [LinearOrderedField α] (s : α → α) (N : ℕ) : List α :=
  (List.range' 1 (N - 1)).map fun n : ℕ => s ((n : α) / (N : α))

/-- Note, composer.rs lines 17-21. -/
structure Note where
  pitch : ℚ
  duration : ℚ
deriving DecidableEq

/-- Instruments, composer.rs lines 8-15. -/
inductive Instruments where
  | Sine
  | Saw
  | Square
  | Triangle
  | Snare
  | Kick
deriving DecidableEq

/-- ProtoTrack, composer.rs lines 32-36 (tempo is a u32). -/
structure ProtoTrack where
  instrument : Instruments
  notes : List Note
  tempo : ℕ

/-- One segment appended to a track sink, composer.rs line 210:
sink.append(oscillator.clone().take_duration(Duration::from_secs_f32 secs)).
It records the cloned oscillator state and the (finite, nonnegative) seconds
of the take_duration cutoff. -/
structure Segment where
  osc : WavetableOscillator ℚ
  secs : ℚ
deriving DecidableEq

instance : Inhabited Segment :=
  ⟨⟨WavetableOscillator.new 0 [], 0⟩⟩

/-- The number of samples take_duration lets through: seconds times the
source sample rate, truncated. -/
def Segment.nsamples (seg : Segment) : ℕ :=
  (⌊seg.secs * (seg.osc.sample_rate : ℚ)⌋).toNat

/-- The phase index at which the segment's rendered stream begins. -/
def Segment.startPhase (seg : Segment) : ℚ :=
  seg.osc.index

/-- The phase index reached when the segment's rendered stream ends. -/
def Segment.endPhase (seg : Segment) : ℚ :=
  (runSamples seg.nsamples seg.osc).index

/-- The mutable per-track rendering state of the scheduling loop,
composer.rs lines 203-212: the track oscillator, the accumulated f32
duration, and the segments appended to the sink so far. -/
structure TrackState where
  osc : WavetableOscillator ℚ
  duration : F32
  segs : List Segment
deriving DecidableEq

/-- One iteration of the inner note loop, composer.rs lines 207-211:
  track.duration += note.duration * (60.0 / track.tempo as f32);
  track.oscillator.set_frequency(note.pitch);
  track.sink.append(track.oscillator.clone().take_duration(...));
Duration::from_secs_f32 panics (none) when the seconds are not finite and
nonnegative. -/
def scheduleNote (tempo : ℕ) (st : TrackState) (note : Note) : Option TrackState :=
  let secsF := F32.mul (.fin note.duration) (sixtyOverTempo tempo)
  let duration2 := F32.add st.duration secsF
  let osc2 := st.osc.set_frequency note.pitch
  match secsF with
  | .fin q => if 0 ≤ q then some ⟨osc2, duration2, st.segs ++ [⟨osc2, q⟩]⟩ else none
  | .pinf => none
  | .ninf => none
  | .nan => none

/-- The inner note loop of composer.rs lines 207-211, over a note list. -/
def scheduleNotes (tempo : ℕ) : TrackState → List Note → Option TrackState
  | st, [] => some st
  | st, note :: rest =>
    match scheduleNote tempo st note with
    | some st2 => scheduleNotes tempo st2 rest
    | none => none

/-- Renders one track, composer.rs lines 203-212: the duration is reset to
0.0 and every note is scheduled in order onto a fresh segment list. -/
def scheduleTrack (notes : List Note) (tempo : ℕ) (osc : WavetableOscillator ℚ) :
    Option TrackState :=
  scheduleNotes tempo ⟨osc, .fin 0, []⟩ notes

/-- The instrument-to-table match of play_song, composer.rs lines 189-196,
over the five tables generated with wave_table_size = 128
(composer.rs lines 148-179). -/
def instrumentTable (s : ℚ → ℚ) (rand : ℕ → ℚ) : Instruments → List ℚ
  | .Sine => fillTable s rand .Sine 128
  | .Saw => fillTable s rand .Saw 128
  | .Square => fillTable s rand .Square 128
  | .Triangle => fillTable s rand .Triangle 128
  | .Snare => fillTable s rand .Noise 128
  | .Kick => fillTable s rand .Noise 128

/-- One step of the longest-duration fold, composer.rs line 219:
  if track.duration > longest_duration { longest_duration = track.duration } -/
def longestStep (acc : F32) (t : TrackState) : F32 :=
  if F32.gtb t.duration acc then t.duration else acc

/-- The longest-duration computation of the playback coordinator,
composer.rs lines 216-220, starting from 0.0. -/
def longestDuration (tracks : List TrackState) : F32 :=
  tracks.foldl longestStep (.fin 0)

/-- Modelled from the spec (refinement target for the coordinator claim):
the maximum cumulativeDuration across tracks, as a rational, ignoring
non-finite durations and taking 0 for an empty collection. -/
def maxStep (acc : ℚ) (t : TrackState) : ℚ :=
  match t.duration with
  | .fin q => max acc q
  | .pinf => acc
  | .ninf => acc
  | .nan => acc

/-- Modelled from the spec: the maximum of the tracks' accumulated durations. -/
def specMaxCumulative (tracks : List TrackState) : ℚ :=
  tracks.foldl maxStep 0

/-- The argument of the final std::thread::sleep, composer.rs line 222:
Duration::from_secs_f32(longest_duration) panics (none) unless the value is
finite and nonnegative. -/
def sleepArg : F32 → Option ℚ
  | .fin q => if 0 ≤ q then some q else none
  | .pinf => none
  | .ninf => none
  | .nan => none

instance : DecidableEq (Except Unit Char) := fun a b =>
  match a, b with
  | .ok x, .ok y =>
    if h : x = y then .isTrue (by rw [h]) else .isFalse (fun hc => h (Except.ok.inj hc))
  | .error x, .error y => .isTrue (by cases x; cases y; rfl)
  | .ok _, .error _ => .isFalse (fun hc => Except.noConfusion hc)
  | .error _, .ok _ => .isFalse (fun hc => Except.noConfusion hc)

/-- The observable outcome of play_song when it returns: the rendered tracks,
the computed longest duration, the seconds slept, and the returned Result
(Result of char and unit in the source, composer.rs line 143). -/
structure Final where
  tracks : List TrackState
  longest : F32
  sleptSecs : ℚ
  result : Except Unit Char
deriving DecidableEq

/-- play_song, composer.rs lines 143-225.  The five wave tables are generated
(composer.rs 148-179), each prototrack becomes a track with a fresh oscillator
at SAMPLE_RATE = 44100 over the matching table and is rendered note by note
(composer.rs 185-212), the longest duration is computed while all sinks start
(composer.rs 216-220), and the thread sleeps for it before returning the
constant success value (composer.rs 222-224).  none models a panic of
Duration::from_secs_f32; the external stream and sink acquisitions
(unwrap on lines 182 and 197) are assumed to succeed. -/
def playSong (s : ℚ → ℚ) (rand : ℕ → ℚ) (prototracks : List ProtoTrack) :
    Option Final :=
  match prototracks.mapM (fun proto =>
      scheduleTrack proto.notes proto.tempo
        (WavetableOscillator.new 44100 (instrumentTable s rand proto.instrument))) with
  | none => none
  | some tracks =>
    (sleepArg (longestDuration tracks)).map
      (fun q => ⟨tracks, longestDuration tracks, q, Except.ok '👍'⟩)

/-! Concrete values used by the witness theorems below. -/

/-- The oscillator of the interpolation scenario: two-point table [0, 1],
phase index 0.5, increment 0.75, sample rate 4. -/
def c5Osc : WavetableOscillator ℚ :=
  ⟨4, [0, 1], 1/2, 3/4⟩

/-- The operation sequence of the C8 witness. -/
def c8Ops : List OscOp :=
  [OscOp.setFreq 441, OscOp.next, OscOp.next, OscOp.setFreq 882, OscOp.next]

/-- The table handed to the scheduler in the C1 counterexample: the sine
table of size 128 generated with the zero stand-ins for sin and rng (the
phase bookkeeping never reads the sample values). -/
def c1Table : List ℚ :=
  fillTable (fun _ => (0 : ℚ)) (fun _ => 0) TableKind.Sine 128

/-- The rendered track state of the C1 counterexample: two notes (pitch 1
then pitch 7, half a beat each) at tempo 60, so each note lasts half a
second; the oscillator clones both start at phase 0. -/
def c1St : TrackState :=
  ⟨⟨44100, c1Table, 0, 32/1575⟩, F32.fin 1,
   [⟨⟨44100, c1Table, 0, 32/11025⟩, 1/2⟩, ⟨⟨44100, c1Table, 0, 32/1575⟩, 1/2⟩]⟩

/-- The rendered track state of the amended-C1 witness: one note of one beat
at tempo 60 over the two-entry zero table. -/
def c1AmSt : TrackState :=
  ⟨⟨44100, [0, 0], 0, 1/11025⟩, F32.fin 1, [⟨⟨44100, [0, 0], 0, 1/11025⟩, 1⟩]⟩

/-- The note list of the C6 witness: the spec scenario
[(261.63, 0.5), (293.66, 0.5)]. -/
def c6Notes : List Note :=
  [⟨26163/100, 1/2⟩, ⟨29366/100, 1/2⟩]

/-- The oscillator of the C6 witness. -/
def c6Osc : WavetableOscillator ℚ :=
  WavetableOscillator.new 44100 [0]

/-- The rendered track state of the C6 witness: total duration
0.3 s + 0.3 s = 0.6 s at tempo 100. -/
def c6St : TrackState :=
  ⟨⟨44100, [0], 0, 14683/2205000⟩, F32.fin (3/5),
   [⟨⟨44100, [0], 0, 2907/490000⟩, 3/10⟩, ⟨⟨44100, [0], 0, 14683/2205000⟩, 3/10⟩]⟩

/-- The two tracks of the C7 witness, with durations 0.6 s and 1.8 s. -/
def c7Tracks : List TrackState :=
  [⟨WavetableOscillator.new 0 [], F32.fin (3/5), []⟩,
   ⟨WavetableOscillator.new 0 [], F32.fin (9/5), []⟩]

/-- The outcome of play_song on the empty prototrack list. -/
def c10Final : Final :=
  ⟨[], F32.fin 0, 0, Except.ok '👍'⟩

/-! Helper lemmas about the modelled float primitives. -/

theorem specMaxCumulative_eq (tracks : List TrackState) :
    specMaxCumulative tracks = tracks.foldl maxStep 0 :=
  rfl

theorem longestDuration_eq (tracks : List TrackState) :
    longestDuration tracks = tracks.foldl longestStep (.fin 0) :=
  rfl

theorem rtrunc_of_nonneg {α : Type} [LinearOrderedField α] [FloorRing α]
    {x : α} (h : 0 ≤ x) : rtrunc x = ⌊x⌋ :=
  if_pos h

theorem rustTruncUsize_of_nonneg {α : Type} [LinearOrderedField α] [FloorRing α]
    {x : α} (h : 0 ≤ x) : rustTruncUsize x = (⌊x⌋).toNat :=
  if_neg (not_lt.mpr h)

theorem rustRem_eq_mathFmod {α : Type} [LinearOrderedField α] [FloorRing α]
    {x y : α} (h0 : 0 ≤ x) (hy : 0 < y) : rustRem x y = mathFmod x y := by
  unfold rustRem mathFmod
  rw [rtrunc_of_nonneg (div_nonneg h0 hy.le)]

theorem mathFmod_eq_fract {α : Type} [LinearOrderedField α] [FloorRing α]
    (x y : α) (hy : y ≠ 0) : mathFmod x y = y * Int.fract (x / y) := by
  have hxy : y * (x / y) = x := by field_simp
  have hfr : Int.fract (x / y) = x / y - (⌊x / y⌋ : ℤ) := rfl
  rw [mathFmod, hfr, mul_sub, hxy]

theorem mathFmod_nonneg {α : Type} [LinearOrderedField α] [FloorRing α]
    (x : α) {y : α} (hy : 0 < y) : 0 ≤ mathFmod x y := by
  rw [mathFmod_eq_fract x y hy.ne']
  exact mul_nonneg hy.le (Int.fract_nonneg _)

theorem mathFmod_lt {α : Type} [LinearOrderedField α] [FloorRing α]
    (x : α) {y : α} (hy : 0 < y) : mathFmod x y < y := by
  rw [mathFmod_eq_fract x y hy.ne']
  calc y * Int.fract (x / y) < y * 1 :=
        mul_lt_mul_of_pos_left (Int.fract_lt_one _) hy
    _ = y := mul_one y

theorem mathFmod_self_of_lt {α : Type} [LinearOrderedField α] [FloorRing α]
    {x y : α} (h0 : 0 ≤ x) (hxy : x < y) : mathFmod x y = x := by
  have hy : 0 < y := lt_of_le_of_lt h0 hxy
  have hfl : ⌊x / y⌋ = 0 :=
    Int.floor_eq_zero_iff.mpr
      (Set.mem_Ico.mpr ⟨div_nonneg h0 hy.le, (div_lt_one hy).mpr hxy⟩)
  rw [mathFmod, hfl]
  simp

theorem mathFmod_absorb {α : Type} [LinearOrderedField α] [FloorRing α]
    (a b y : α) (hy : y ≠ 0) :
    mathFmod (mathFmod a y + b) y = mathFmod (a + b) y := by
  unfold mathFmod
  have h1 : (a - y * (⌊a / y⌋ : ℤ) + b) / y = (a + b) / y - (⌊a / y⌋ : ℤ) := by
    field_simp
    ring
  rw [h1, Int.floor_sub_int]
  push_cast
  ring

/-! Helper lemmas about the oscillator step. -/

theorem get_sample_index {α : Type} [LinearOrderedField α] [FloorRing α]
    (o : WavetableOscillator α) :
    ((o.get_sample).2).index = rustRem (o.index + o.index_increment) (o.wave_table.length : α) :=
  rfl

theorem get_sample_table {α : Type} [LinearOrderedField α] [FloorRing α]
    (o : WavetableOscillator α) :
    ((o.get_sample).2).wave_table = o.wave_table :=
  rfl

theorem get_sample_increment {α : Type} [LinearOrderedField α] [FloorRing α]
    (o : WavetableOscillator α) :
    ((o.get_sample).2).index_increment = o.index_increment :=
  rfl

/-- Closed form for the phase after k pulls: with a nonnegative phase and
increment and a nonempty table, the phase after k samples is the start phase
plus k increments, reduced mod the table length. -/
theorem runSamples_index :
    ∀ (k : ℕ) (o : WavetableOscillator ℚ),
      0 < o.wave_table.length → 0 ≤ o.index →
      o.index < (o.wave_table.length : ℚ) → 0 ≤ o.index_increment →
      (runSamples k o).index =
        mathFmod (o.index + (k : ℚ) * o.index_increment) (o.wave_table.length : ℚ) := by
  intro k
  induction k with
  | zero =>
    intro o hN h0 h1 hinc
    have hz : o.index + ((0 : ℕ) : ℚ) * o.index_increment = o.index := by
      push_cast
      ring
    rw [runSamples, hz]
    exact (mathFmod_self_of_lt h0 h1).symm
  | succ k ih =>
    intro o hN h0 h1 hinc
    have hNq : (0 : ℚ) < (o.wave_table.length : ℚ) := by exact_mod_cast hN
    have hidx : ((o.get_sample).2).index =
        mathFmod (o.index + o.index_increment) (o.wave_table.length : ℚ) := by
      rw [get_sample_index]
      exact rustRem_eq_mathFmod (add_nonneg h0 hinc) hNq
    have hrec := ih (o.get_sample).2 hN
      (by rw [hidx]; exact mathFmod_nonneg _ hNq)
      (by rw [get_sample_table, hidx]; exact mathFmod_lt _ hNq)
      (by rw [get_sample_increment]; exact hinc)
    rw [runSamples, hrec, get_sample_table, get_sample_increment, hidx,
      mathFmod_absorb _ _ _ hNq.ne']
    have harg : o.index + o.index_increment + (k : ℚ) * o.index_increment =
        o.index + ((k + 1 : ℕ) : ℚ) * o.index_increment := by
      push_cast
      ring
    rw [harg]

/-! Helper lemmas about the note scheduler. -/

/-- Inversion of one scheduling step: a successful step appends exactly one
segment carrying the freshly retuned oscillator clone and some finite
nonnegative seconds. -/
theorem scheduleNote_some (tempo : ℕ) (st st2 : TrackState) (note : Note)
    (h : scheduleNote tempo st note = some st2) :
    ∃ q, 0 ≤ q ∧
      st2 = ⟨st.osc.set_frequency note.pitch,
             F32.add st.duration (.fin q),
             st.segs ++ [⟨st.osc.set_frequency note.pitch, q⟩]⟩ := by
  unfold scheduleNote at h
  cases hm : F32.mul (.fin note.duration) (sixtyOverTempo tempo) with
  | fin q =>
    rw [hm] at h
    dsimp only at h
    by_cases hq : 0 ≤ q
    · rw [if_pos hq] at h
      exact ⟨q, hq, (Option.some.inj h).symm⟩
    · rw [if_neg hq] at h
      exact Option.noConfusion h
  | pinf => rw [hm] at h; exact Option.noConfusion h
  | ninf => rw [hm] at h; exact Option.noConfusion h
  | nan => rw [hm] at h; exact Option.noConfusion h

/-- With a nonzero tempo the seconds of a successful step are exactly
note.duration * (60 / tempo). -/
theorem scheduleNote_some_of_pos {tempo : ℕ} (ht : tempo ≠ 0)
    (st st2 : TrackState) (note : Note)
    (h : scheduleNote tempo st note = some st2) :
    0 ≤ note.duration * (60 / (tempo : ℚ)) ∧
      st2 = ⟨st.osc.set_frequency note.pitch,
             F32.add st.duration (.fin (note.duration * (60 / (tempo : ℚ)))),
             st.segs ++ [⟨st.osc.set_frequency note.pitch,
                          note.duration * (60 / (tempo : ℚ))⟩]⟩ := by
  unfold scheduleNote at h
  rw [sixtyOverTempo, if_neg ht] at h
  have hmul : F32.mul (.fin note.duration) (.fin (60 / (tempo : ℚ))) =
      .fin (note.duration * (60 / (tempo : ℚ))) := rfl
  rw [hmul] at h
  dsimp only at h
  by_cases hq : 0 ≤ note.duration * (60 / (tempo : ℚ))
  · rw [if_pos hq] at h
    exact ⟨hq, (Option.some.inj h).symm⟩
  · rw [if_neg hq] at h
    exact Option.noConfusion h

/-- Every successful run of the note loop accumulates exactly the sum of the
per-note seconds on top of the starting duration, for a nonzero tempo. -/
theorem scheduleNotes_duration {tempo : ℕ} (ht : tempo ≠ 0) :
    ∀ (notes : List Note) (st0 st : TrackState) (q : ℚ),
      st0.duration = F32.fin q →
      scheduleNotes tempo st0 notes = some st →
      st.duration =
        F32.fin (q + (notes.map fun n => n.duration * 60 / (tempo : ℚ)).sum) := by
  intro notes
  induction notes with
  | nil =>
    intro st0 st q hq h
    rw [scheduleNotes] at h
    rw [← Option.some.inj h, hq]
    simp
  | cons note rest ih =>
    intro st0 st q hq h
    rw [scheduleNotes] at h
    cases hsn : scheduleNote tempo st0 note with
    | none => rw [hsn] at h; exact Option.noConfusion h
    | some st1 =>
      rw [hsn] at h
      obtain ⟨-, hshape⟩ := scheduleNote_some_of_pos ht st0 st1 note hsn
      have hd1 : st1.duration = F32.fin (q + note.duration * (60 / (tempo : ℚ))) := by
        rw [hshape, hq]
        rfl
      have := ih st1 st (q + note.duration * (60 / (tempo : ℚ))) hd1 h
      rw [this]
      have : q + note.duration * (60 / (tempo : ℚ)) +
          (rest.map fun n => n.duration * 60 / (tempo : ℚ)).sum =
          q + ((note :: rest).map fun n => n.duration * 60 / (tempo : ℚ)).sum := by
        simp [List.sum_cons]
        ring
      rw [this]

/-- The scheduler never advances the track oscillator phase: every appended
segment starts at the phase the fresh oscillator had, namely 0. -/
theorem scheduleNotes_phase (tempo : ℕ) :
    ∀ (notes : List Note) (st0 st : TrackState),
      st0.osc.index = 0 → (∀ seg ∈ st0.segs, seg.startPhase = 0) →
      scheduleNotes tempo st0 notes = some st →
      ∀ seg ∈ st.segs, seg.startPhase = 0 := by
  intro notes
  induction notes with
  | nil =>
    intro st0 st hidx hsegs h
    rw [scheduleNotes] at h
    rw [← Option.some.inj h]
    exact hsegs
  | cons note rest ih =>
    intro st0 st hidx hsegs h
    rw [scheduleNotes] at h
    cases hsn : scheduleNote tempo st0 note with
    | none => rw [hsn] at h; exact Option.noConfusion h
    | some st1 =>
      rw [hsn] at h
      obtain ⟨q, -, hshape⟩ := scheduleNote_some tempo st0 st1 note hsn
      refine ih st1 st ?_ ?_ h
      · rw [hshape]
        exact hidx
      · intro seg hseg
        rw [hshape] at hseg
        simp only [List.mem_append, List.mem_singleton] at hseg
        rcases hseg with hseg | hseg
        · exact hsegs seg hseg
        · rw [hseg]
          exact hidx

/-- Reading an element of a mapped range list. -/
theorem getD_map_range {γ : Type} (f : ℕ → γ) (d : γ) (N k : ℕ) (hk : k < N) :
    ((List.range N).map f).getD k d = f k := by
  rw [List.getD_eq_getElem?_getD, List.getElem?_map, List.getElem?_range hk]
  rfl

/-- The oscillator phase invariant is preserved along any operation sequence
whose set_frequency calls all use nonnegative frequencies. -/
theorem applyOps_inv :
    ∀ (ops : List OscOp) (o : WavetableOscillator ℚ),
      (∀ op ∈ ops, op.nonnegb = true) →
      0 < o.wave_table.length → 0 ≤ o.index →
      o.index < (o.wave_table.length : ℚ) → 0 ≤ o.index_increment →
      (applyOps o ops).wave_table = o.wave_table ∧
      0 ≤ (applyOps o ops).index ∧
      (applyOps o ops).index < (o.wave_table.length : ℚ) := by
  intro ops
  induction ops with
  | nil =>
    intro o _ hN h0 h1 _
    exact ⟨rfl, h0, h1⟩
  | cons op rest ih =>
    intro o hops hN h0 h1 hinc
    have hrest : ∀ op2 ∈ rest, op2.nonnegb = true :=
      fun op2 h2 => hops op2 (List.mem_cons_of_mem _ h2)
    cases op with
    | setFreq f =>
      have hf : (0 : ℚ) ≤ f := by
        have := hops _ (List.mem_cons_self _ _)
        simpa [OscOp.nonnegb] using this
      have hincf : 0 ≤ (o.set_frequency f).index_increment :=
        div_nonneg (mul_nonneg hf (Nat.cast_nonneg _)) (Nat.cast_nonneg _)
      exact ih (o.set_frequency f) hrest hN h0 h1 hincf
    | next =>
      have hNq : (0 : ℚ) < (o.wave_table.length : ℚ) := by exact_mod_cast hN
      have hidx : ((o.get_sample).2).index =
          mathFmod (o.index + o.index_increment) (o.wave_table.length : ℚ) := by
        rw [get_sample_index]
        exact rustRem_eq_mathFmod (add_nonneg h0 hinc) hNq
      exact ih (o.get_sample).2 hrest hN
        (by rw [hidx]; exact mathFmod_nonneg _ hNq)
        (by rw [get_sample_table, hidx]; exact mathFmod_lt _ hNq)
        (by rw [get_sample_increment]; exact hinc)

/-- A finite nonnegative modelled float is some fin q with 0 <= q. -/
theorem isFinNonneg_elim {d : F32} (h : d.isFinNonneg = true) :
    ∃ p, d = F32.fin p ∧ 0 ≤ p := by
  cases d with
  | fin q =>
    refine ⟨q, rfl, ?_⟩
    simpa [F32.isFinNonneg] using h
  | pinf => simp [F32.isFinNonneg] at h
  | ninf => simp [F32.isFinNonneg] at h
  | nan => simp [F32.isFinNonneg] at h

/-- The coordinator fold computed from any finite nonnegative start value
agrees with the rational max fold, dominates the start value, is the start
value or one of the durations, and bounds every duration. -/
theorem longest_fold_spec :
    ∀ (ts : List TrackState) (a : ℚ),
      (∀ t ∈ ts, t.duration.isFinNonneg = true) →
      ts.foldl longestStep (.fin a) = .fin (ts.foldl maxStep a) ∧
      a ≤ ts.foldl maxStep a ∧
      (ts.foldl maxStep a = a ∨
        F32.fin (ts.foldl maxStep a) ∈ ts.map fun t => t.duration) ∧
      (∀ t ∈ ts, ∀ p, t.duration = F32.fin p → p ≤ ts.foldl maxStep a) := by
  intro ts
  induction ts with
  | nil =>
    intro a _
    refine ⟨rfl, le_rfl, Or.inl rfl, ?_⟩
    intro t ht
    exact absurd ht (List.not_mem_nil t)
  | cons t rest ih =>
    intro a hfin
    obtain ⟨p, hp, hp0⟩ := isFinNonneg_elim (hfin t (List.mem_cons_self _ _))
    have hstep : longestStep (.fin a) t = .fin (maxStep a t) := by
      by_cases hap : a < p
      · simp [longestStep, maxStep, hp, F32.gtb, hap, max_eq_right hap.le]
      · simp [longestStep, maxStep, hp, F32.gtb, hap, max_eq_left (not_lt.mp hap)]
    have hmax : maxStep a t = max a p := by rw [maxStep, hp]
    have ihres := ih (maxStep a t) fun u hu => hfin u (List.mem_cons_of_mem _ hu)
    refine ⟨?_, ?_, ?_, ?_⟩
    · rw [List.foldl_cons, List.foldl_cons, hstep]
      exact ihres.1
    · rw [List.foldl_cons]
      exact le_trans (by rw [hmax]; exact le_max_left a p) ihres.2.1
    · rw [List.foldl_cons]
      rcases ihres.2.2.1 with heq | hmem
      · by_cases hap : a < p
        · right
          rw [heq, hmax, max_eq_right hap.le, List.map_cons, ← hp]
          exact List.mem_cons_self _ _
        · left
          rw [heq, hmax, max_eq_left (not_lt.mp hap)]
      · right
        rw [List.map_cons]
        exact List.mem_cons_of_mem _ hmem
    · intro u hu pu hpu
      rw [List.foldl_cons]
      rcases List.mem_cons.mp hu with rfl | hu2
      · have hpp : pu = p := by
          rw [hpu] at hp
          exact F32.fin.inj hp.symm |>.symm
        rw [hpp]
        exact le_trans (by rw [hmax]; exact le_max_right a p) ihres.2.1
      · exact ihres.2.2.2 u hu2 pu hpu

/-- C3: for the play_song generator (composer.rs 156-179) every kind and
every size N give a table of exactly N entries; but the duplicated sine fill
of main.rs lines 94-96 starts its loop at 1 and produces 63 entries for
N = 64, not 64. -/
theorem c3_table_lengths :
    (∀ (α : Type) (inst : LinearOrderedField α) (s : α → α) (rand : ℕ → α)
        (kind : TableKind) (N : ℕ), (@fillTable α inst s rand kind N).length = N) ∧
    (∀ (α : Type) (inst : LinearOrderedField α) (s : α → α),
        (@mainSineTable α inst s 64).length = 63) ∧
    (63 : ℕ) ≠ 64 := by
  refine ⟨?_, ?_, by decide⟩
  · intro α inst s rand kind N
    cases kind <;> simp only [fillTable, List.length_map, List.length_range]
  · intro α inst s
    simp only [mainSineTable, List.length_map, List.length_range']

/-- C5: with the phase invariant 0 <= index < N and a nonnegative increment,
get_sample returns the linear interpolation (1-frac)*table[i] + frac*table[j]
with i = floor index, j = (i+1) mod N, frac = index - i, all read from the
pre-call state, and the post-call phase is (index + increment) mod N. -/
theorem c5_get_sample (α : Type) [LinearOrderedField α] [FloorRing α]
    (o : WavetableOscillator α) (hN : 0 < o.wave_table.length)
    (h0 : 0 ≤ o.index) (h1 : o.index < (o.wave_table.length : α))
    (hinc : 0 ≤ o.index_increment) :
    (o.get_sample).1 =
      (1 - (o.index - (((⌊o.index⌋).toNat : ℕ) : α))) *
          o.wave_table.getD (⌊o.index⌋).toNat 0
        + (o.index - (((⌊o.index⌋).toNat : ℕ) : α)) *
          o.wave_table.getD (((⌊o.index⌋).toNat + 1) % o.wave_table.length) 0 ∧
    ((o.get_sample).2).index =
      mathFmod (o.index + o.index_increment) (o.wave_table.length : α) := by
  constructor
  · show o.lerp = _
    simp only [WavetableOscillator.lerp, rustTruncUsize_of_nonneg h0]
  · rw [get_sample_index]
    exact rustRem_eq_mathFmod (add_nonneg h0 hinc) (by exact_mod_cast hN)

/-- Witness for C5 at the spec scenario oscillator; the interpolated sample
is 0.5 as the spec's two-point-table scenario demands. -/
theorem c5_get_sample_witness :
    (0 < c5Osc.wave_table.length ∧ 0 ≤ c5Osc.index ∧
      c5Osc.index < (c5Osc.wave_table.length : ℚ) ∧ 0 ≤ c5Osc.index_increment) ∧
    ((c5Osc.get_sample).1 =
      (1 - (c5Osc.index - (((⌊c5Osc.index⌋).toNat : ℕ) : ℚ))) *
          c5Osc.wave_table.getD (⌊c5Osc.index⌋).toNat 0
        + (c5Osc.index - (((⌊c5Osc.index⌋).toNat : ℕ) : ℚ)) *
          c5Osc.wave_table.getD (((⌊c5Osc.index⌋).toNat + 1) % c5Osc.wave_table.length) 0 ∧
      ((c5Osc.get_sample).2).index =
        mathFmod (c5Osc.index + c5Osc.index_increment) (c5Osc.wave_table.length : ℚ)) ∧
    (c5Osc.get_sample).1 = 1/2 := by
  have hN : 0 < c5Osc.wave_table.length := by decide
  have h0 : 0 ≤ c5Osc.index := by norm_num [c5Osc]
  have h1 : c5Osc.index < (c5Osc.wave_table.length : ℚ) := by norm_num [c5Osc]
  have hinc : 0 ≤ c5Osc.index_increment := by norm_num [c5Osc]
  refine ⟨⟨hN, h0, h1, hinc⟩, c5_get_sample ℚ c5Osc hN h0 h1 hinc, ?_⟩
  norm_num [c5Osc, WavetableOscillator.get_sample, WavetableOscillator.lerp,
    rustTruncUsize, List.getD]

/-- C8 counterexample: a single set_frequency with the negative frequency -1
on a fresh oscillator (sample rate 4, table length 2) followed by one
get_sample leaves the phase index at -1/2, which is negative, because the
Rust float remainder keeps the sign of the dividend. -/
theorem c8_counterexample :
    (((WavetableOscillator.new 4 [(0 : ℚ), 0]).set_frequency (-1)).get_sample).2.index
      = -(1/2) ∧
    ¬ (0 ≤ (((WavetableOscillator.new 4 [(0 : ℚ), 0]).set_frequency (-1)).get_sample).2.index) := by
  have h : (((WavetableOscillator.new 4 [(0 : ℚ), 0]).set_frequency (-1)).get_sample).2.index
      = -(1/2) := by
    norm_num [WavetableOscillator.new, WavetableOscillator.set_frequency,
      WavetableOscillator.get_sample, rustRem, rtrunc]
  refine ⟨h, ?_⟩
  rw [h]
  norm_num

/-- C8 as amended: starting from a fresh oscillator over a nonempty table
with a positive sample rate, any sequence of set_frequency and get_sample
calls whose frequencies are all nonnegative keeps the phase index inside
[0, N).  (The positive sample rate keeps the model inside the faithful
region: a zero rate would give an infinite f32 increment.) -/
theorem c8_phase_invariant (sr : ℕ) (table : List ℚ) (ops : List OscOp)
    (hsr : 0 < sr) (hN : 0 < table.length)
    (hops : ∀ op ∈ ops, op.nonnegb = true) :
    0 ≤ (applyOps (WavetableOscillator.new sr table) ops).index ∧
    (applyOps (WavetableOscillator.new sr table) ops).index < (table.length : ℚ) := by
  have h := applyOps_inv ops (WavetableOscillator.new sr table) hops hN
    (le_refl 0) (show (0 : ℚ) < (table.length : ℚ) by exact_mod_cast hN)
    (le_refl 0)
  exact ⟨h.2.1, h.2.2⟩

/-- Witness for the amended C8 at a concrete operation sequence. -/
theorem c8_phase_invariant_witness :
    (0 < 44100 ∧ 0 < ([(0 : ℚ), 0]).length ∧ (∀ op ∈ c8Ops, op.nonnegb = true)) ∧
    (0 ≤ (applyOps (WavetableOscillator.new 44100 [(0 : ℚ), 0]) c8Ops).index ∧
      (applyOps (WavetableOscillator.new 44100 [(0 : ℚ), 0]) c8Ops).index
        < (([(0 : ℚ), 0]).length : ℚ)) :=
  ⟨⟨by decide, by decide, by decide⟩,
    c8_phase_invariant 44100 [(0 : ℚ), 0] c8Ops (by decide) (by decide) (by decide)⟩

/-- C9: the four closed-form table kinds never read the random stream, so
generating them twice with identical parameters yields identical tables;
Noise is excluded. -/
theorem c9_closed_form_deterministic {α : Type} [LinearOrderedField α]
    (s : α → α) (r1 r2 : ℕ → α) (kind : TableKind) (N : ℕ)
    (h : kind ≠ TableKind.Noise) :
    fillTable s r1 kind N = fillTable s r2 kind N := by
  cases kind with
  | Sine => rfl
  | Saw => rfl
  | Square => rfl
  | Triangle => rfl
  | Noise => exact absurd rfl h

/-- Witness for C9: the sine table of size 8 under two different random
streams. -/
theorem c9_witness :
    (TableKind.Sine ≠ TableKind.Noise) ∧
    fillTable (fun x : ℚ => x) (fun n => (n : ℚ)) TableKind.Sine 8 =
      fillTable (fun x : ℚ => x) (fun n => ((n : ℚ) + 1)) TableKind.Sine 8 :=
  ⟨by decide, c9_closed_form_deterministic _ _ _ TableKind.Sine 8 (by decide)⟩

/-- C4: for the play_song generator the sine table, instantiated at the real
sine, has entry 0 equal to 0 and entry N/4 equal to 1 (N positive and
divisible by 4); but the duplicated sine fill of main.rs lines 94-96 starts
at n = 1, so its entry 0 is sin (2 pi / 64), which is not 0. -/
theorem c4_sine_endpoints :
    (∀ (rand : ℕ → ℝ) (N : ℕ), 0 < N → 4 ∣ N →
      (fillTable (fun x => Real.sin (2 * Real.pi * x)) rand TableKind.Sine N).getD 0 0 = 0 ∧
      (fillTable (fun x => Real.sin (2 * Real.pi * x)) rand TableKind.Sine N).getD (N / 4) 0 = 1) ∧
    (mainSineTable (fun x => Real.sin (2 * Real.pi * x)) 64).getD 0 0 ≠ 0 := by
  constructor
  · intro rand N hN hdvd
    have hfill : fillTable (fun x => Real.sin (2 * Real.pi * x)) rand TableKind.Sine N =
        (List.range N).map fun n : ℕ => Real.sin (2 * Real.pi * ((n : ℝ) / (N : ℝ))) := rfl
    constructor
    · rw [hfill, getD_map_range _ _ _ _ hN]
      norm_num
    · obtain ⟨m, rfl⟩ := hdvd
      have hm : 0 < m := by omega
      have hk : 4 * m / 4 = m := by omega
      have hlt : m < 4 * m := by omega
      rw [hfill, hk, getD_map_range _ _ _ _ hlt]
      have hmne : ((m : ℝ)) ≠ 0 := Nat.cast_ne_zero.mpr hm.ne'
      have hc : ((m : ℝ)) / ((4 * m : ℕ) : ℝ) = 1 / 4 := by
        push_cast
        rw [mul_comm]
        rw [div_eq_div_iff (by positivity) (by norm_num)]
        ring
      rw [hc]
      have harg : (2 : ℝ) * Real.pi * (1 / 4) = Real.pi / 2 := by ring
      rw [harg, Real.sin_pi_div_two]
  · have hmain : mainSineTable (fun x => Real.sin (2 * Real.pi * x)) 64 =
        (List.range' 1 63).map fun n : ℕ => Real.sin (2 * Real.pi * ((n : ℝ) / (64 : ℝ))) := rfl
    rw [hmain]
    have hget : ((List.range' 1 63).map fun n : ℕ =>
        Real.sin (2 * Real.pi * ((n : ℝ) / (64 : ℝ)))).getD 0 0 =
        Real.sin (2 * Real.pi * ((1 : ℝ) / 64)) := by
      rw [List.getD_eq_getElem?_getD, List.getElem?_map, List.getElem?_range']
      · norm_num
      · norm_num
    rw [hget]
    have harg : (2 : ℝ) * Real.pi * ((1 : ℝ) / 64) = Real.pi / 32 := by ring
    rw [harg]
    have hpos : 0 < Real.sin (Real.pi / 32) :=
      Real.sin_pos_of_pos_of_lt_pi (by positivity)
        (div_lt_self Real.pi_pos (by norm_num))
    exact hpos.ne'

/-- Witness for the composer half of C4 at N = 128. -/
theorem c4_sine_endpoints_witness :
    (0 < 128 ∧ 4 ∣ 128) ∧
    ((fillTable (fun x => Real.sin (2 * Real.pi * x)) (fun _ => 0) TableKind.Sine 128).getD 0 0 = 0 ∧
      (fillTable (fun x => Real.sin (2 * Real.pi * x)) (fun _ => 0) TableKind.Sine 128).getD (128 / 4) 0 = 1) :=
  ⟨⟨by decide, by decide⟩, c4_sine_endpoints.1 (fun _ => 0) 128 (by decide) (by decide)⟩

/-- C6: for a positive tempo, a successfully rendered track accumulates
exactly the sum over its notes of duration * 60 / tempo seconds. -/
theorem c6_track_duration (notes : List Note) (tempo : ℕ) (ht : 0 < tempo)
    (osc : WavetableOscillator ℚ) (st : TrackState)
    (h : scheduleTrack notes tempo osc = some st) :
    st.duration = F32.fin ((notes.map fun n => n.duration * 60 / (tempo : ℚ)).sum) := by
  have h2 := scheduleNotes_duration ht.ne' notes ⟨osc, .fin 0, []⟩ st 0 rfl h
  simpa using h2

/-- Witness for C6 at the spec scenario: notes [(261.63, 0.5), (293.66, 0.5)]
at tempo 100 give a total duration of 0.6 seconds. -/
theorem c6_track_duration_witness :
    (0 < 100) ∧ scheduleTrack c6Notes 100 c6Osc = some c6St ∧
    c6St.duration = F32.fin (3/5) := by
  have h : scheduleTrack c6Notes 100 c6Osc = some c6St := by
    norm_num [scheduleTrack, scheduleNotes, scheduleNote, sixtyOverTempo, F32.mul, F32.add,
      WavetableOscillator.new, WavetableOscillator.set_frequency, c6Notes, c6Osc, c6St]
  refine ⟨by decide, h, ?_⟩
  have h2 := c6_track_duration c6Notes 100 (by decide) c6Osc c6St h
  rw [h2]
  norm_num [c6Notes]

/-- C7: for a nonempty track collection with finite nonnegative accumulated
durations, the coordinator's computed longest duration is exactly the maximum
of the tracks' durations, that same value is what the final sleep waits on
(and the sleep succeeds), it belongs to the duration list, and it bounds
every track's duration. -/
theorem c7_coordinator (tracks : List TrackState) (hne : tracks ≠ [])
    (hfin : ∀ t ∈ tracks, t.duration.isFinNonneg = true) :
    longestDuration tracks = F32.fin (specMaxCumulative tracks) ∧
    sleepArg (longestDuration tracks) = some (specMaxCumulative tracks) ∧
    F32.fin (specMaxCumulative tracks) ∈ tracks.map (fun t => t.duration) ∧
    ∀ t ∈ tracks, F32.leb t.duration (F32.fin (specMaxCumulative tracks)) = true := by
  obtain ⟨h1, h2, h3, h4⟩ := longest_fold_spec tracks 0 hfin
  have hM0 : 0 ≤ specMaxCumulative tracks := h2
  have hld : longestDuration tracks = F32.fin (specMaxCumulative tracks) := h1
  refine ⟨hld, ?_, ?_, ?_⟩
  · rw [hld]
    simp [sleepArg, hM0]
  · rcases h3 with heq | hmem
    · obtain ⟨t0, ts, rfl⟩ := List.exists_cons_of_ne_nil hne
      obtain ⟨p, hp, hp0⟩ := isFinNonneg_elim (hfin t0 (List.mem_cons_self _ _))
      have hple : p ≤ specMaxCumulative (t0 :: ts) :=
        h4 t0 (List.mem_cons_self _ _) p hp
      rw [specMaxCumulative_eq] at hple
      rw [heq] at hple
      have hpz : p = 0 := le_antisymm hple hp0
      have ht0 : t0.duration = F32.fin 0 := by rw [hp, hpz]
      rw [specMaxCumulative_eq, heq, List.map_cons, ← ht0]
      exact List.mem_cons_self _ _
    · exact hmem
  · intro t ht
    obtain ⟨p, hp, hp0⟩ := isFinNonneg_elim (hfin t ht)
    have hple := h4 t ht p hp
    rw [hp]
    simp only [F32.leb, decide_eq_true_eq]
    rw [specMaxCumulative_eq]
    exact hple

/-- Witness for C7 at two tracks of 0.6 s and 1.8 s: the computed and slept
duration is 1.8 s. -/
theorem c7_coordinator_witness :
    (c7Tracks ≠ [] ∧ ∀ t ∈ c7Tracks, t.duration.isFinNonneg = true) ∧
    (longestDuration c7Tracks = F32.fin (specMaxCumulative c7Tracks) ∧
      sleepArg (longestDuration c7Tracks) = some (specMaxCumulative c7Tracks)) ∧
    specMaxCumulative c7Tracks = 9/5 := by
  have hne : c7Tracks ≠ [] := by simp [c7Tracks]
  have hfin : ∀ t ∈ c7Tracks, t.duration.isFinNonneg = true := by
    intro t ht
    simp only [c7Tracks, List.mem_cons, List.not_mem_nil, or_false] at ht
    rcases ht with rfl | rfl <;> norm_num [F32.isFinNonneg]
  have h := c7_coordinator c7Tracks hne hfin
  refine ⟨⟨hne, hfin⟩, ⟨h.1, h.2.1⟩, ?_⟩
  rw [specMaxCumulative_eq]
  norm_num [c7Tracks, maxStep, max_def]

/-- C1 counterexample: in the two-note track (pitch 1 then pitch 7, half a
second each at tempo 60), note 1's rendering ends at phase index 64, but
note 2's rendered stream begins at phase index 0, not 64: the scheduler
clones the never-advanced track oscillator for every note. -/
theorem c1_counterexample :
    ((scheduleTrack [⟨1, 1/2⟩, ⟨7, 1/2⟩] 60 (WavetableOscillator.new 44100 c1Table)).map
        fun st => ((st.segs.getD 0 default).endPhase, (st.segs.getD 1 default).startPhase))
      = some (64, 0) ∧ (0 : ℚ) ≠ 64 := by
  have hlen : c1Table.length = 128 := by
    simp only [c1Table, fillTable, List.length_map, List.length_range]
  have hsched : scheduleTrack [⟨1, 1/2⟩, ⟨7, 1/2⟩] 60 (WavetableOscillator.new 44100 c1Table)
      = some c1St := by
    norm_num [scheduleTrack, scheduleNotes, scheduleNote, sixtyOverTempo, F32.mul, F32.add,
      WavetableOscillator.new, WavetableOscillator.set_frequency, hlen, c1St]
  have hns : (Segment.mk ⟨44100, c1Table, 0, 32/11025⟩ (1/2)).nsamples = 22050 := by
    rw [Segment.nsamples]
    norm_num
    decide
  have hrun := runSamples_index 22050 ⟨44100, c1Table, 0, 32/11025⟩
    (by show 0 < c1Table.length; rw [hlen]; decide)
    (le_refl 0)
    (by show (0 : ℚ) < ((c1Table.length : ℕ) : ℚ); rw [hlen]; norm_num)
    (by norm_num)
  have hend : (Segment.mk ⟨44100, c1Table, 0, 32/11025⟩ (1/2)).endPhase = 64 := by
    rw [Segment.endPhase, hns, hrun]
    dsimp only
    rw [hlen]
    norm_num [mathFmod]
  refine ⟨?_, by norm_num⟩
  rw [hsched, Option.map_some']
  have hseg0 : c1St.segs.getD 0 default = Segment.mk ⟨44100, c1Table, 0, 32/11025⟩ (1/2) := rfl
  have hseg1 : c1St.segs.getD 1 default = Segment.mk ⟨44100, c1Table, 0, 32/1575⟩ (1/2) := rfl
  rw [hseg0, hseg1, hend]
  rfl

/-- C1 as amended: every segment appended by the scheduler starts at phase
index 0; the oscillator phase does not continue from the previous note. -/
theorem c1_phase_restarts (notes : List Note) (tempo : ℕ) (table : List ℚ)
    (st : TrackState)
    (h : scheduleTrack notes tempo (WavetableOscillator.new 44100 table) = some st) :
    ∀ seg ∈ st.segs, seg.startPhase = 0 := by
  refine scheduleNotes_phase tempo notes
    ⟨WavetableOscillator.new 44100 table, .fin 0, []⟩ st rfl ?_ h
  intro seg hseg
  exact absurd hseg (List.not_mem_nil seg)

/-- Witness for the amended C1 at a concrete one-note track. -/
theorem c1_phase_restarts_witness :
    scheduleTrack [⟨2, 1⟩] 60 (WavetableOscillator.new 44100 [0, 0]) = some c1AmSt ∧
    ∀ seg ∈ c1AmSt.segs, seg.startPhase = 0 := by
  have h : scheduleTrack [⟨2, 1⟩] 60 (WavetableOscillator.new 44100 [0, 0]) = some c1AmSt := by
    norm_num [scheduleTrack, scheduleNotes, scheduleNote, sixtyOverTempo, F32.mul, F32.add,
      WavetableOscillator.new, WavetableOscillator.set_frequency, c1AmSt]
  exact ⟨h, c1_phase_restarts _ _ _ _ h⟩

/-- C2: with tempo 0 the code computes the per-note seconds
1 * (60 / 0) = +inf (no ConfigurationError exists anywhere in play_song),
and play_song panics inside Duration::from_secs_f32 instead of returning an
error: the model never reaches a return value. -/
theorem c2_tempo_zero :
    F32.mul (.fin 1) (sixtyOverTempo 0) = F32.pinf ∧
    playSong (fun _ => 0) (fun _ => 0) [⟨Instruments.Sine, [⟨440, 1⟩], 0⟩] = none :=
  ⟨by decide, by decide⟩

/-- C10: whenever play_song returns at all, the returned Result is the
success value Ok of the thumbs-up character; the error branch is never
produced. -/
theorem c10_always_ok (s : ℚ → ℚ) (rand : ℕ → ℚ) (pts : List ProtoTrack) (fs : Final)
    (h : playSong s rand pts = some fs) :
    fs.result = Except.ok '👍' := by
  unfold playSong at h
  split at h
  · exact Option.noConfusion h
  · rw [Option.map_eq_some'] at h
    obtain ⟨q, hq, hfs⟩ := h
    rw [← hfs]

/-- Witness for C10 on the empty prototrack list. -/
theorem c10_always_ok_witness :
    playSong (fun _ => 0) (fun _ => 0) [] = some c10Final ∧
    c10Final.result = Except.ok '👍' :=
  ⟨by decide, c10_always_ok (fun _ => 0) (fun _ => 0) [] c10Final (by decide)⟩

end RodioSynth
